import Mathlib

set_option linter.all false

/-!
Shallow embedding of the account proof message builder (src/account_proof.go)
and of the transaction signer resolution engine of the flow-go-sdk repository,
with theorems settling the specification claims.

Byte strings are modelled as lists of naturals (each byte value below 256 at
the source level); machine integers are modelled as Nat/Int with explicit
reduction modulo 2 ^ 64 where the source converts int64 to uint64.
-/

/-- ProofError distinguishes the error kinds surfaced by the account proof
builder in src/account_proof.go: a hex-decoding failure of the address string
(the error hex decoding address branch) or an over-long domain tag (the
NewDomainTag error propagated through the error encoding domain tag branch). -/
inductive ProofError where
  | invalidAddress
  | tagTooLong
deriving DecidableEq

/-- fromHexChar models the per-digit decoding of Go encoding/hex: the value of
one hex digit byte, or none when the byte is not a hex digit. -/
def fromHexChar (c : Nat) : Option Nat :=
  if 48 ≤ c ∧ c ≤ 57 then some (c - 48)
  else if 97 ≤ c ∧ c ≤ 102 then some (c - 97 + 10)
  else if 65 ≤ c ∧ c ≤ 70 then some (c - 65 + 10)
  else none

/-- hexDecode models Go hex.DecodeString on the byte string of the input:
bytes are decoded two hex digits at a time; an odd-length input or a non-hex
digit yields none. -/
def hexDecode : List Nat → Option (List Nat)
  | [] => some []
  | [_] => none
  | c1 :: c2 :: rest =>
    match fromHexChar c1, fromHexChar c2, hexDecode rest with
    | some hi, some lo, some r => some ((16 * hi + lo) :: r)
    | _, _, _ => none

/-- hexChar models the lowercase hex digit rendering of Go encoding/hex. -/
def hexChar (n : Nat) : Nat := if n < 10 then 48 + n else 87 + n

/-- hexEncode models Go hex.EncodeToString, returned as the byte string of the
output text. -/
def hexEncode : List Nat → List Nat
  | [] => []
  | b :: r => hexChar (b / 16) :: hexChar (b % 16) :: hexEncode r

/-- beBytesAux is a fuel-driven computation of the minimal big-endian base-256
digit string of a natural number; any fuel of at least n computes the value. -/
def beBytesAux : Nat → Nat → List Nat
  | 0, _ => []
  | fuel + 1, n => if n = 0 then [] else beBytesAux fuel (n / 256) ++ [n % 256]

/-- beBytes is the minimal big-endian byte string of a natural number, as used
by the go-ethereum rlp integer encoding; beBytes 0 is the empty string. -/
def beBytes (n : Nat) : List Nat := beBytesAux n n

/-- rlpStr models the go-ethereum rlp encoding of a byte string: one byte
below 0x80 stands for itself, a string of at most 55 bytes gets a one-byte
length header 0x80 + length, and a longer string gets a header byte
0xb7 + length-of-length followed by the big-endian length. -/
def rlpStr (b : List Nat) : List Nat :=
  if b.length = 1 ∧ b.headD 0 < 128 then b
  else if b.length ≤ 55 then (128 + b.length) :: b
  else (183 + (beBytes b.length).length) :: (beBytes b.length ++ b)

/-- rlpList models the go-ethereum rlp encoding of a list value, taking the
already concatenated encodings of its items as the payload. -/
def rlpList (payload : List Nat) : List Nat :=
  if payload.length ≤ 55 then (192 + payload.length) :: payload
  else (247 + (beBytes payload.length).length) :: (beBytes payload.length ++ payload)

/-- rlpUint models the go-ethereum rlp encoding of an unsigned integer: its
minimal big-endian byte string encoded as an rlp string. -/
def rlpUint (n : Nat) : List Nat := rlpStr (beBytes n)

/-- intToUInt64 models the Go conversion uint64(timestamp) applied to an int64
value: reduction modulo 2 ^ 64. -/
def intToUInt64 (i : Int) : Nat := (i % (18446744073709551616 : Int)).toNat

/-- domainTagLength is the fixed domain tag width. Modelled from the spec: the
DomainTag is a fixed-length byte array (the constant itself is declared
outside src/; the SDK uses 32 bytes). -/
def domainTagLength : Nat := 32

/-- paddedDomainTag right-pads the tag bytes with zero bytes to the fixed
width. Modelled from the spec: the builder right-pads the input with zero
bytes to the fixed width (the Go paddedDomainTag helper is outside src/). -/
def paddedDomainTag (tag : List Nat) : List Nat :=
  tag ++ List.replicate (domainTagLength - tag.length) 0

/-- NewDomainTag (src/account_proof.go lines 76-82) returns the padded domain
tag, or a TagTooLong error when the input is longer than the fixed width. -/
def NewDomainTag (tag : List Nat) : Except ProofError (List Nat) :=
  if tag.length > domainTagLength then Except.error ProofError.tagTooLong
  else Except.ok (paddedDomainTag tag)

/-- NewAccountProofMsg (src/account_proof.go lines 41-72) hex-decodes the
address string, then rlp-encodes either the two-field struct
canonicalAcctProofWithoutTag when the app domain tag is the empty string, or
the three-field struct canonicalAcctProofWithTag whose first field is the
lowercase hex rendering of the padded app domain tag. -/
def NewAccountProofMsg (addr : List Nat) (timestamp : Int) (appDomainTag : List Nat) :
    Except ProofError (List Nat) :=
  match hexDecode addr with
  | none => Except.error ProofError.invalidAddress
  | some decodedAddr =>
    if appDomainTag = [] then
      Except.ok (rlpList (rlpStr decodedAddr ++ rlpUint (intToUInt64 timestamp)))
    else
      match NewDomainTag appDomainTag with
      | Except.error e => Except.error e
      | Except.ok paddedTag =>
        Except.ok (rlpList (rlpStr (hexEncode paddedTag) ++
          (rlpStr decodedAddr ++ rlpUint (intToUInt64 timestamp))))

deriving instance DecidableEq for Except

example : NewAccountProofMsg [48, 49] 0 [] = Except.ok [194, 1, 128] := by decide

example : NewDomainTag [65, 66] =
    Except.ok ([65, 66] ++ List.replicate 30 0) := by decide

example : (NewAccountProofMsg [48, 49] 255 [65]).isOk = true := by decide

example : NewAccountProofMsg [48] 0 [] = Except.error ProofError.invalidAddress := by
  decide

/-- beBytesAux computes the empty string on input 0, for every fuel. -/
theorem beBytesAux_zero : ∀ fuel, beBytesAux fuel 0 = [] := by
  intro fuel
  cases fuel <;> simp [beBytesAux]

/-- beBytesAux is independent of the fuel once the fuel is at least the input. -/
theorem beBytesAux_congr : ∀ f1 f2 n, n ≤ f1 → n ≤ f2 → beBytesAux f1 n = beBytesAux f2 n := by
  intro f1
  induction f1 with
  | zero =>
    intro f2 n h1 h2
    have : n = 0 := Nat.le_zero.mp h1
    subst this
    rw [beBytesAux_zero, beBytesAux_zero]
  | succ a ih =>
    intro f2 n h1 h2
    by_cases hn : n = 0
    · subst hn
      rw [beBytesAux_zero, beBytesAux_zero]
    · obtain ⟨b, rfl⟩ : ∃ b, f2 = b + 1 := by
        cases f2 with
        | zero => exact absurd (Nat.le_zero.mp h2) hn
        | succ b => exact ⟨b, rfl⟩
      simp only [beBytesAux, if_neg hn]
      have hdiv : n / 256 < n := Nat.div_lt_self (Nat.pos_of_ne_zero hn) (by norm_num)
      have ha : n / 256 ≤ a := by omega
      have hb : n / 256 ≤ b := by omega
      rw [← ih b (n / 256) ha hb]

/-- beBytes satisfies its intended recursion equation. -/
theorem beBytes_eq (n : Nat) :
    beBytes n = if n = 0 then [] else beBytes (n / 256) ++ [n % 256] := by
  by_cases hn : n = 0
  · subst hn
    simp [beBytes, beBytesAux_zero]
  · obtain ⟨m, rfl⟩ : ∃ m, n = m + 1 := ⟨n - 1, by omega⟩
    simp only [beBytes, beBytesAux, if_neg hn]
    have h1 : (m + 1) / 256 ≤ m := by
      have := Nat.div_lt_self (Nat.succ_pos m) (show 1 < 256 by norm_num)
      omega
    rw [beBytesAux_congr m ((m + 1) / 256) ((m + 1) / 256) h1 (Nat.le_refl _)]

/-- beBytes of a nonzero number is nonempty. -/
theorem beBytes_length_pos {n : Nat} (hn : n ≠ 0) : 0 < (beBytes n).length := by
  rw [beBytes_eq]
  simp [hn]

/-- beBytes length is monotone in its argument. -/
theorem beBytes_length_mono : ∀ n m, m ≤ n → (beBytes m).length ≤ (beBytes n).length := by
  intro n
  induction n using Nat.strong_induction_on with
  | _ n ih =>
    intro m hmn
    by_cases hm : m = 0
    · subst hm
      have h0 : beBytes 0 = [] := by rw [beBytes_eq]; simp
      simp [h0]
    · have hn : n ≠ 0 := by omega
      rw [beBytes_eq m, beBytes_eq n, if_neg hm, if_neg hn]
      simp only [List.length_append, List.length_cons, List.length_nil]
      have hdl : m / 256 ≤ n / 256 := Nat.div_le_div_right hmn
      have hlt : n / 256 < n := Nat.div_lt_self (Nat.pos_of_ne_zero hn) (by norm_num)
      have := ih (n / 256) hlt (m / 256) hdl
      omega

/-- rlpStr never produces the empty string. -/
theorem rlpStr_length_pos (b : List Nat) : 0 < (rlpStr b).length := by
  unfold rlpStr
  split
  · rename_i h
    omega
  · split <;> simp

/-- rlpList output length as a function of the payload length. -/
theorem rlpList_length (p : List Nat) : (rlpList p).length =
    (if p.length ≤ 55 then 1 else 1 + (beBytes p.length).length) + p.length := by
  unfold rlpList
  split <;> rename_i h <;> simp [h] <;> omega

/-- rlpList output length is strictly monotone in the payload length. -/
theorem rlpList_length_lt {p q : List Nat} (h : p.length < q.length) :
    (rlpList p).length < (rlpList q).length := by
  rw [rlpList_length, rlpList_length]
  by_cases hp : p.length ≤ 55 <;> by_cases hq : q.length ≤ 55 <;> simp only [hp, hq, if_pos, if_neg, if_true, if_false]
  · omega
  · have := beBytes_length_pos (n := q.length) (by omega)
    omega
  · omega
  · have := beBytes_length_mono q.length p.length (Nat.le_of_lt h)
    omega

/-- hexDecode fails exactly on an odd-length input or a non-hex digit. -/
theorem hexDecode_none_iff : ∀ (s : List Nat),
    hexDecode s = none ↔ s.length % 2 = 1 ∨ ∃ c ∈ s, fromHexChar c = none
  | [] => by simp [hexDecode]
  | [c] => by simp [hexDecode]
  | c1 :: c2 :: rest => by
    have ih := hexDecode_none_iff rest
    simp only [hexDecode, List.length_cons, List.mem_cons]
    have hmod : (rest.length + 1 + 1) % 2 = rest.length % 2 := by omega
    rw [hmod]
    cases h1 : fromHexChar c1 <;> cases h2 : fromHexChar c2 <;>
      cases h3 : hexDecode rest <;>
      simp_all <;> omega

/-- C6: NewDomainTag returns the input right-padded with zero bytes to the
fixed tag width whenever the input length is at most that width, and returns a
TagTooLong error if and only if the input length exceeds the fixed width. -/
theorem NewDomainTag_pads_or_rejects (tag : List Nat) :
    (tag.length ≤ domainTagLength →
      NewDomainTag tag = Except.ok (paddedDomainTag tag) ∧
      (paddedDomainTag tag).length = domainTagLength ∧
      (paddedDomainTag tag).take tag.length = tag ∧
      (paddedDomainTag tag).drop tag.length =
        List.replicate (domainTagLength - tag.length) 0) ∧
    (NewDomainTag tag = Except.error ProofError.tagTooLong ↔
      domainTagLength < tag.length) := by
  constructor
  · intro h
    refine ⟨?_, ?_, ?_, ?_⟩
    · simp [NewDomainTag, Nat.not_lt.mpr h]
    · simp [paddedDomainTag]
      omega
    · simpa [paddedDomainTag] using List.take_left tag _
    · simpa [paddedDomainTag] using List.drop_left tag _
  · unfold NewDomainTag
    by_cases h : tag.length > domainTagLength <;> simp [h]

/-- Witness for C6 at the one-byte tag 0x61. -/
theorem NewDomainTag_pads_or_rejects_witness :
    NewDomainTag [97] = Except.ok (paddedDomainTag [97]) ∧
    (paddedDomainTag [97]).length = domainTagLength ∧
    (paddedDomainTag [97]).take 1 = [97] ∧
    (paddedDomainTag [97]).drop 1 = List.replicate 31 0 :=
  (NewDomainTag_pads_or_rejects [97]).1 (by decide)

/-- C10: for every address that hex-decodes and every timestamp, calling
NewAccountProofMsg with the empty app domain tag succeeds and produces the
two-field no-tag encoding, so the empty string is treated as no tag supplied
and never reaches the domain tag builder. -/
theorem NewAccountProofMsg_emptyTag (addr : List Nat) (ts : Int) (d : List Nat)
    (hd : hexDecode addr = some d) :
    NewAccountProofMsg addr ts [] =
      Except.ok (rlpList (rlpStr d ++ rlpUint (intToUInt64 ts))) := by
  simp [NewAccountProofMsg, hd]

/-- Witness for C10 at the address string 01 and timestamp 5. -/
theorem NewAccountProofMsg_emptyTag_witness :
    NewAccountProofMsg [48, 49] 5 [] =
      Except.ok (rlpList (rlpStr [1] ++ rlpUint (intToUInt64 5))) :=
  NewAccountProofMsg_emptyTag [48, 49] 5 [1] (by decide)

/-- C5 counterexample: the two-character address string 01 is well-formed hex
but has the wrong length for the fixed 20-byte address width (40 hex digits),
yet NewAccountProofMsg succeeds and produces message bytes instead of
returning an InvalidAddress error. -/
theorem NewAccountProofMsg_wrongLength_ok :
    NewAccountProofMsg [48, 49] 0 [] = Except.ok [194, 1, 128] ∧
    hexDecode [48, 49] = some [1] ∧ [48, 49].length ≠ 40 := by decide

/-- C5 amended: NewAccountProofMsg returns the InvalidAddress error exactly
when the address string is malformed hex (odd length or a non-hex digit); the
decoded address length is never compared against the fixed address width, and
no message bytes are produced on that error. -/
theorem NewAccountProofMsg_invalidAddress_iff (addr : List Nat) (ts : Int)
    (tag : List Nat) :
    NewAccountProofMsg addr ts tag = Except.error ProofError.invalidAddress ↔
      (addr.length % 2 = 1 ∨ ∃ c ∈ addr, fromHexChar c = none) := by
  rw [← hexDecode_none_iff]
  unfold NewAccountProofMsg
  cases h : hexDecode addr with
  | none => simp
  | some d =>
    by_cases htag : tag = []
    · simp [htag]
    · unfold NewDomainTag
      by_cases hlen : tag.length > domainTagLength <;> simp [htag, hlen]

/-- C4: with a non-empty app domain tag of valid length, NewAccountProofMsg
canonically encodes the three fields (padded tag as lowercase hex text,
decoded address bytes, timestamp); with the empty tag it encodes only the two
fields (decoded address bytes, timestamp); and for the same address and
timestamp the two results are different byte sequences. -/
theorem NewAccountProofMsg_tag_schemas (addr : List Nat) (ts : Int)
    (tag d : List Nat) (hd : hexDecode addr = some d) (htag : tag ≠ [])
    (hlen : tag.length ≤ domainTagLength) :
    NewAccountProofMsg addr ts tag =
      Except.ok (rlpList (rlpStr (hexEncode (paddedDomainTag tag)) ++
        (rlpStr d ++ rlpUint (intToUInt64 ts)))) ∧
    NewAccountProofMsg addr ts [] =
      Except.ok (rlpList (rlpStr d ++ rlpUint (intToUInt64 ts))) ∧
    NewAccountProofMsg addr ts tag ≠ NewAccountProofMsg addr ts [] := by
  have h1 : NewAccountProofMsg addr ts tag =
      Except.ok (rlpList (rlpStr (hexEncode (paddedDomainTag tag)) ++
        (rlpStr d ++ rlpUint (intToUInt64 ts)))) := by
    simp [NewAccountProofMsg, hd, htag, NewDomainTag, Nat.not_lt.mpr hlen]
  have h2 := NewAccountProofMsg_emptyTag addr ts d hd
  refine ⟨h1, h2, ?_⟩
  rw [h1, h2]
  intro hcontra
  have hlists := Except.ok.inj hcontra
  have hlenlt : (rlpStr d ++ rlpUint (intToUInt64 ts)).length <
      (rlpStr (hexEncode (paddedDomainTag tag)) ++
        (rlpStr d ++ rlpUint (intToUInt64 ts))).length := by
    have := rlpStr_length_pos (hexEncode (paddedDomainTag tag))
    simp only [List.length_append]
    omega
  have := rlpList_length_lt hlenlt
  rw [hlists] at this
  omega

/-- Witness for C4 at the address string 01, timestamp 0, and the one-byte
tag 0x41. -/
theorem NewAccountProofMsg_tag_schemas_witness :
    NewAccountProofMsg [48, 49] 0 [65] =
      Except.ok (rlpList (rlpStr (hexEncode (paddedDomainTag [65])) ++
        (rlpStr [1] ++ rlpUint (intToUInt64 0)))) ∧
    NewAccountProofMsg [48, 49] 0 [] =
      Except.ok (rlpList (rlpStr [1] ++ rlpUint (intToUInt64 0))) ∧
    NewAccountProofMsg [48, 49] 0 [65] ≠ NewAccountProofMsg [48, 49] 0 [] :=
  NewAccountProofMsg_tag_schemas [48, 49] 0 [65] [1] (by decide) (by decide)
    (by decide)

/-- SignerRole is the role of a role declaration: proposer, payer, or
authorizer. -/
inductive SignerRole where
  | proposer
  | payer
  | authorizer
deriving DecidableEq

/-- ProposalKey is the proposal key record: address, key index, sequence
number. Addresses are modelled as naturals; only byte-exact equality of
addresses is ever used by the resolution engine. -/
structure ProposalKey where
  address : Nat
  keyIndex : Nat
  sequenceNumber : Nat
deriving DecidableEq

/-- RoleDecl is one declared role assignment: an address, the declared key
indices in call order, and the role. Modelled from the spec (the Go
transaction builder is outside src/; its behavior is pinned by
src/transaction_test.go). -/
structure RoleDecl where
  address : Nat
  keyIndices : List Nat
  role : SignerRole
deriving DecidableEq

instance : Inhabited RoleDecl := ⟨⟨0, [], SignerRole.authorizer⟩⟩

/-- Signer is one resolved signing party: address, roles rendered in the
fixed priority order, deduplicated ascending key indices, and the proposal
key back-reference when the proposer role is present. -/
structure Signer where
  address : Nat
  roles : List SignerRole
  keyIndices : List Nat
  proposalKey : Option ProposalKey
deriving DecidableEq

/-- Transaction is the builder state relevant to signer resolution. Modelled
from the spec data model: at most one ProposalKey, at most one Payer role
assignment (a field, set by replacement), and an ordered list of Authorizer
role assignments (accumulated in call order). -/
structure Transaction where
  proposalKey : Option ProposalKey
  payer : Option (Nat × List Nat)
  authorizers : List (Nat × List Nat)
deriving DecidableEq

/-- NewTransaction is the empty builder. -/
def NewTransaction : Transaction := ⟨none, none, []⟩

/-- SetProposalKey replaces the proposal key (last call wins). -/
def Transaction.SetProposalKey (t : Transaction) (a k s : Nat) : Transaction :=
  { t with proposalKey := some ⟨a, k, s⟩ }

/-- SetPayer replaces the payer role assignment (last call wins). -/
def Transaction.SetPayer (t : Transaction) (a : Nat) (ks : List Nat) : Transaction :=
  { t with payer := some (a, ks) }

/-- AddAuthorizer appends an authorizer role assignment in call order. -/
def Transaction.AddAuthorizer (t : Transaction) (a : Nat) (ks : List Nat) : Transaction :=
  { t with authorizers := t.authorizers ++ [(a, ks)] }

/-- propPart is the proposer candidate declaration, when declared. -/
def propPart (t : Transaction) : List RoleDecl :=
  match t.proposalKey with
  | some pk => [⟨pk.address, [pk.keyIndex], SignerRole.proposer⟩]
  | none => []

/-- authPart lists the authorizer candidate declarations in call order. -/
def authPart (t : Transaction) : List RoleDecl :=
  t.authorizers.map fun a => ⟨a.1, a.2, SignerRole.authorizer⟩

/-- payerPart is the payer candidate declaration, when declared. -/
def payerPart (t : Transaction) : List RoleDecl :=
  match t.payer with
  | some p => [⟨p.1, p.2, SignerRole.payer⟩]
  | none => []

/-- candidates lists the declared roles as candidate groups of one, in the
processing order pinned by the tests in src/transaction_test.go: the proposer
first (when declared), then the authorizers in call order, then the payer
last (when declared). -/
def Transaction.candidates (t : Transaction) : List RoleDecl :=
  propPart t ++ authPart t ++ payerPart t

/-- keySubset decides set inclusion of key index lists. -/
def keySubset (xs ys : List Nat) : Bool := xs.all fun x => ys.contains x

/-- keyComparable holds when one key index set contains the other. -/
def keyComparable (xs ys : List Nat) : Bool := keySubset xs ys || keySubset ys xs

/-- canMerge is the merge predicate of the resolution engine: same address and
subset-comparable key index sets. Modelled from the spec. -/
def canMerge (c d : RoleDecl) : Bool :=
  c.address == d.address && keyComparable c.keyIndices d.keyIndices

/-- touches tells whether candidate i can merge with some member of the
group g of candidate indices. -/
def touches (cands : List RoleDecl) (i : Nat) (g : List Nat) : Bool :=
  g.any fun j => canMerge (cands.getD i default) (cands.getD j default)

/-- insertIndex adds candidate i to the running group list: all groups i can
merge with are united with i into one group placed at i's slot (the end), the
others keep their relative order. Modelled from the spec's union-find with
transitive closure, with the positional rule pinned by
src/transaction_test.go. -/
def insertIndex (cands : List RoleDecl) (gs : List (List Nat)) (i : Nat) :
    List (List Nat) :=
  gs.filter (fun g => !touches cands i g) ++
    [(gs.filter (touches cands i)).flatten ++ [i]]

/-- buildGroups folds the first k candidates into groups. -/
def buildGroups (cands : List RoleDecl) : Nat → List (List Nat)
  | 0 => []
  | k + 1 => insertIndex cands (buildGroups cands k) k

/-- groupIndices partitions all candidate indices into merged groups. -/
def groupIndices (cands : List RoleDecl) : List (List Nat) :=
  buildGroups cands cands.length

/-- groupHasRole tells whether some member of the group declares the role. -/
def groupHasRole (cands : List RoleDecl) (g : List Nat) (r : SignerRole) : Bool :=
  g.any fun j => (cands.getD j default).role == r

/-- insertKey inserts a key index into an ascending list without duplicates. -/
def insertKey (x : Nat) : List Nat → List Nat
  | [] => [x]
  | y :: ys =>
    if x < y then x :: y :: ys
    else if x = y then y :: ys
    else y :: insertKey x ys

/-- sortDedup sorts a key index list ascending and removes duplicates. -/
def sortDedup (l : List Nat) : List Nat := l.foldr insertKey []

/-- keysOfGroup concatenates the declared key indices of a group's members. -/
def keysOfGroup (cands : List RoleDecl) (g : List Nat) : List Nat :=
  g.foldr (fun j acc => (cands.getD j default).keyIndices ++ acc) []

/-- signerOfGroup renders one merged group as a resolved Signer: roles in the
fixed priority order proposer, payer, authorizer; key indices deduplicated
and sorted ascending; the proposal key back-reference when the proposer role
is present. -/
def signerOfGroup (pk : Option ProposalKey) (cands : List RoleDecl)
    (g : List Nat) : Signer :=
  { address := (cands.getD (g.headD 0) default).address
    roles :=
      (if groupHasRole cands g SignerRole.proposer then [SignerRole.proposer] else []) ++
      (if groupHasRole cands g SignerRole.payer then [SignerRole.payer] else []) ++
      (if groupHasRole cands g SignerRole.authorizer then [SignerRole.authorizer] else [])
    keyIndices := sortDedup (keysOfGroup cands g)
    proposalKey := if groupHasRole cands g SignerRole.proposer then pk else none }

/-- signerGroups is the ordered merged-group list of a transaction. -/
def Transaction.signerGroups (t : Transaction) : List (List Nat) :=
  groupIndices t.candidates

/-- Signers resolves the transaction's role declarations into the ordered,
deduplicated signer list. -/
def Transaction.Signers (t : Transaction) : List Signer :=
  t.signerGroups.map (signerOfGroup t.proposalKey t.candidates)

example : (NewTransaction.SetProposalKey 1 1 42 |>.SetPayer 2 [1]).Signers =
    [⟨1, [SignerRole.proposer], [1], some ⟨1, 1, 42⟩⟩,
     ⟨2, [SignerRole.payer], [1], none⟩] := by decide

example : (NewTransaction.SetProposalKey 1 3 42 |>.SetPayer 2 [7]
    |>.AddAuthorizer 1 [3, 2]).Signers =
    [⟨1, [SignerRole.proposer, SignerRole.authorizer], [2, 3], some ⟨1, 3, 42⟩⟩,
     ⟨2, [SignerRole.payer], [7], none⟩] := by decide

example : (NewTransaction.SetProposalKey 1 1 42 |>.SetPayer 3 [1]
    |>.AddAuthorizer 2 [1]).Signers =
    [⟨1, [SignerRole.proposer], [1], some ⟨1, 1, 42⟩⟩,
     ⟨2, [SignerRole.authorizer], [1], none⟩,
     ⟨3, [SignerRole.payer], [1], none⟩] := by decide

example : (NewTransaction.SetProposalKey 1 1 42 |>.SetPayer 1 [4, 2, 1, 3]).Signers =
    [⟨1, [SignerRole.proposer, SignerRole.payer], [1, 2, 3, 4], some ⟨1, 1, 42⟩⟩] := by
  decide

example : (NewTransaction.SetProposalKey 1 1 42 |>.AddAuthorizer 2 [1]
    |>.SetPayer 1 [1, 2]).Signers =
    [⟨2, [SignerRole.authorizer], [1], none⟩,
     ⟨1, [SignerRole.proposer, SignerRole.payer], [1, 2], some ⟨1, 1, 42⟩⟩] := by decide

example : (NewTransaction.SetProposalKey 1 1 42 |>.AddAuthorizer 2 [2, 3]
    |>.SetPayer 2 [1, 2]).Signers =
    [⟨1, [SignerRole.proposer], [1], some ⟨1, 1, 42⟩⟩,
     ⟨2, [SignerRole.authorizer], [2, 3], none⟩,
     ⟨2, [SignerRole.payer], [1, 2], none⟩] := by decide

example : (NewTransaction.SetProposalKey 1 1 42 |>.AddAuthorizer 2 [1]
    |>.SetPayer 2 [1, 2]).Signers =
    [⟨1, [SignerRole.proposer], [1], some ⟨1, 1, 42⟩⟩,
     ⟨2, [SignerRole.payer, SignerRole.authorizer], [1, 2], none⟩] := by decide

/-- maxIndex is the largest element of a group of candidate indices (0 on the
empty list); it is the slot a merged group occupies. -/
def maxIndex : List Nat → Nat
  | [] => 0
  | [x] => x
  | x :: xs => max x (maxIndex xs)

/-- Every member of a group is at most its maxIndex. -/
theorem le_maxIndex_of_mem : ∀ (g : List Nat) (x : Nat), x ∈ g → x ≤ maxIndex g
  | [], x, h => absurd h (List.not_mem_nil x)
  | [a], x, h => by
    simp only [List.mem_singleton] at h
    simp [maxIndex, h]
  | a :: b :: t, x, h => by
    simp only [maxIndex]
    rcases List.mem_cons.mp h with rfl | h2
    · exact le_max_left _ _
    · exact le_trans (le_maxIndex_of_mem (b :: t) x h2) (le_max_right _ _)

/-- The maxIndex of a nonempty group is one of its members. -/
theorem maxIndex_mem : ∀ (g : List Nat), g ≠ [] → maxIndex g ∈ g
  | [], h => absurd rfl h
  | [a], _ => by simp [maxIndex]
  | a :: b :: t, _ => by
    have ih := maxIndex_mem (b :: t) (by simp)
    simp only [maxIndex]
    rcases Nat.le_total a (maxIndex (b :: t)) with h | h
    · rw [max_eq_right h]
      exact List.mem_cons_of_mem _ ih
    · rw [max_eq_left h]
      exact List.mem_cons_self _ _

/-- maxIndex equals k when k is a member bounding every other member. -/
theorem maxIndex_eq_of (g : List Nat) (k : Nat) (hk : k ∈ g)
    (hb : ∀ x ∈ g, x ≤ k) : maxIndex g = k :=
  Nat.le_antisymm (hb _ (maxIndex_mem g (by rintro rfl; exact absurd hk (List.not_mem_nil k))))
    (le_maxIndex_of_mem g k hk)

/-- mergeStep is one edge of the merge relation: two in-range candidate
indices whose declarations can merge. -/
def mergeStep (cands : List RoleDecl) (i j : Nat) : Prop :=
  i < cands.length ∧ j < cands.length ∧
    canMerge (cands.getD i default) (cands.getD j default) = true

/-- linked is the transitive closure of the merge relation: the chain of
pairwise subset-comparable same-address declarations of the spec. -/
def linked (cands : List RoleDecl) : Nat → Nat → Prop :=
  Relation.ReflTransGen (mergeStep cands)

/-- canMerge is symmetric. -/
theorem canMerge_symm (c d : RoleDecl) : canMerge c d = canMerge d c := by
  unfold canMerge keyComparable
  have h1 : (c.address == d.address) = (d.address == c.address) := by
    by_cases h : c.address = d.address
    · simp [h]
    · simp [h, Ne.symm h]
  rw [h1, Bool.or_comm]

/-- canMerge only holds between declarations with the same address. -/
theorem canMerge_address {c d : RoleDecl} (h : canMerge c d = true) :
    c.address = d.address := by
  unfold canMerge at h
  rw [Bool.and_eq_true] at h
  exact eq_of_beq h.1

/-- mergeStep is symmetric. -/
theorem mergeStep_symm {cands : List RoleDecl} {i j : Nat}
    (h : mergeStep cands i j) : mergeStep cands j i := by
  obtain ⟨hi, hj, hc⟩ := h
  exact ⟨hj, hi, by rw [canMerge_symm]; exact hc⟩

/-- linked is symmetric. -/
theorem linked_symm {cands : List RoleDecl} {i j : Nat}
    (h : linked cands i j) : linked cands j i :=
  Relation.ReflTransGen.symmetric (fun _ _ hs => mergeStep_symm hs) h

/-- GroupsInv is the loop invariant of the grouping fold after the first k
candidates have been processed: the groups are nonempty, contain only
processed indices, cover all processed indices, are pairwise disjoint,
internally linked, pairwise unmergeable, and listed in strictly increasing
order of their largest member. -/
structure GroupsInv (cands : List RoleDecl) (k : Nat) (gs : List (List Nat)) : Prop where
  nonempty : ∀ g ∈ gs, g ≠ []
  bounded : ∀ g ∈ gs, ∀ i ∈ g, i < k
  cover : ∀ i, i < k → ∃ g ∈ gs, i ∈ g
  disj : ∀ g ∈ gs, ∀ h ∈ gs, g ≠ h → ∀ i ∈ g, i ∉ h
  conn : ∀ g ∈ gs, ∀ i ∈ g, ∀ j ∈ g, linked cands i j
  sep : ∀ g ∈ gs, ∀ h ∈ gs, g ≠ h → ∀ i ∈ g, ∀ j ∈ h,
    canMerge (cands.getD i default) (cands.getD j default) = false
  ord : List.Pairwise (fun g h => maxIndex g < maxIndex h) gs

/-- A group that does not touch candidate k contains no declaration that can
merge with candidate k. -/
theorem htouch_false_all (cands : List RoleDecl) (k : Nat) (g : List Nat)
    (hf : touches cands k g = false) :
    ∀ j ∈ g, canMerge (cands.getD k default) (cands.getD j default) = false := by
  intro j hj
  cases hcm : canMerge (cands.getD k default) (cands.getD j default) with
  | false => rfl
  | true =>
    have : touches cands k g = true := by
      unfold touches
      exact List.any_eq_true.mpr ⟨j, hj, hcm⟩
    rw [hf] at this
    cases this

/-- insertIndex preserves the grouping invariant, advancing k by one. -/
theorem groupsInv_insert (cands : List RoleDecl) (k : Nat) (gs : List (List Nat))
    (inv : GroupsInv cands k gs) (hk : k < cands.length) :
    GroupsInv cands (k + 1) (insertIndex cands gs k) := by
  have hmem : ∀ g, g ∈ insertIndex cands gs k ↔
      (g ∈ gs ∧ touches cands k g = false) ∨
        g = (gs.filter (touches cands k)).flatten ++ [k] := by
    intro g
    unfold insertIndex
    simp only [List.mem_append, List.mem_singleton, List.mem_filter,
      Bool.not_eq_true']
  have hmerged_mem : ∀ x, x ∈ (gs.filter (touches cands k)).flatten ++ [k] ↔
      (∃ g ∈ gs, touches cands k g = true ∧ x ∈ g) ∨ x = k := by
    intro x
    simp only [List.mem_append, List.mem_singleton, List.mem_flatten,
      List.mem_filter]
    constructor
    · rintro (⟨g, ⟨hg, ht⟩, hx⟩ | rfl)
      · exact Or.inl ⟨g, hg, ht, hx⟩
      · exact Or.inr rfl
    · rintro (⟨g, hg, ht, hx⟩ | rfl)
      · exact Or.inl ⟨g, ⟨hg, ht⟩, hx⟩
      · exact Or.inr rfl
  have htouch_true : ∀ g, touches cands k g = true →
      ∃ j ∈ g, canMerge (cands.getD k default) (cands.getD j default) = true := by
    intro g ht
    unfold touches at ht
    exact List.any_eq_true.mp ht
  refine ⟨?_, ?_, ?_, ?_, ?_, ?_, ?_⟩
  · intro g hg
    rcases (hmem g).mp hg with ⟨hgs, _⟩ | rfl
    · exact inv.nonempty g hgs
    · simp
  · intro g hg i hi
    rcases (hmem g).mp hg with ⟨hgs, _⟩ | rfl
    · exact Nat.lt_succ_of_lt (inv.bounded g hgs i hi)
    · rcases (hmerged_mem i).mp hi with ⟨g', hg', _, hig'⟩ | rfl
      · exact Nat.lt_succ_of_lt (inv.bounded g' hg' i hig')
      · omega
  · intro i hik
    by_cases hi : i < k
    · obtain ⟨g, hg, hig⟩ := inv.cover i hi
      cases ht : touches cands k g with
      | false => exact ⟨g, (hmem g).mpr (Or.inl ⟨hg, ht⟩), hig⟩
      | true =>
        refine ⟨_, (hmem _).mpr (Or.inr rfl), ?_⟩
        exact (hmerged_mem i).mpr (Or.inl ⟨g, hg, ht, hig⟩)
    · have : i = k := by omega
      subst this
      exact ⟨_, (hmem _).mpr (Or.inr rfl), (hmerged_mem i).mpr (Or.inr rfl)⟩
  · intro g hg h hh hgh i hig
    rcases (hmem g).mp hg with ⟨hgs, htg⟩ | rfl <;>
      rcases (hmem h).mp hh with ⟨hhs, hth⟩ | rfl
    · exact inv.disj g hgs h hhs hgh i hig
    · intro him
      rcases (hmerged_mem i).mp him with ⟨g', hg', htg', hig'⟩ | rfl
      · have hne : g ≠ g' := by
          rintro rfl
          rw [htg] at htg'
          cases htg'
        exact inv.disj g hgs g' hg' hne i hig hig'
      · have := inv.bounded g hgs _ hig
        omega
    · intro hih
      rcases (hmerged_mem i).mp hig with ⟨g', hg', htg', hig'⟩ | rfl
      · have hne : g' ≠ h := by
          rintro rfl
          rw [hth] at htg'
          cases htg'
        exact inv.disj g' hg' h hhs hne i hig' hih
      · have := inv.bounded h hhs _ hih
        omega
    · exact absurd rfl hgh
  · have hlink_merged : ∀ x ∈ (gs.filter (touches cands k)).flatten ++ [k],
        linked cands x k := by
      intro x hx
      rcases (hmerged_mem x).mp hx with ⟨g, hg, htg, hxg⟩ | rfl
      · obtain ⟨j, hjg, hcm⟩ := htouch_true g htg
        have hjn : j < cands.length := lt_trans (inv.bounded g hg j hjg) hk
        have hstep : mergeStep cands j k :=
          ⟨hjn, hk, by rw [canMerge_symm]; exact hcm⟩
        exact Relation.ReflTransGen.tail (inv.conn g hg x hxg j hjg) hstep
      · exact Relation.ReflTransGen.refl
    intro g hg i hig j hjg
    rcases (hmem g).mp hg with ⟨hgs, _⟩ | rfl
    · exact inv.conn g hgs i hig j hjg
    · exact Relation.ReflTransGen.trans (hlink_merged i hig)
        (linked_symm (hlink_merged j hjg))
  · intro g hg h hh hgh i hig j hjh
    rcases (hmem g).mp hg with ⟨hgs, htg⟩ | rfl <;>
      rcases (hmem h).mp hh with ⟨hhs, hth⟩ | rfl
    · exact inv.sep g hgs h hhs hgh i hig j hjh
    · rcases (hmerged_mem j).mp hjh with ⟨g', hg', htg', hjg'⟩ | rfl
      · have hne : g ≠ g' := by
          rintro rfl
          rw [htg] at htg'
          cases htg'
        exact inv.sep g hgs g' hg' hne i hig j hjg'
      · rw [canMerge_symm]
        exact htouch_false_all cands j g htg i hig
    · rcases (hmerged_mem i).mp hig with ⟨g', hg', htg', hig'⟩ | rfl
      · have hne : g' ≠ h := by
          rintro rfl
          rw [hth] at htg'
          cases htg'
        exact inv.sep g' hg' h hhs hne i hig' j hjh
      · exact htouch_false_all cands i h hth j hjh
    · exact absurd rfl hgh
  · have hmax : maxIndex ((gs.filter (touches cands k)).flatten ++ [k]) = k := by
      apply maxIndex_eq_of
      · exact List.mem_append.mpr (Or.inr (List.mem_singleton.mpr rfl))
      · intro x hx
        rcases (hmerged_mem x).mp hx with ⟨g, hg, _, hxg⟩ | rfl
        · exact le_of_lt (inv.bounded g hg x hxg)
        · exact le_refl _
    unfold insertIndex
    rw [List.pairwise_append]
    refine ⟨inv.ord.sublist (List.filter_sublist _), by simp, ?_⟩
    intro g hgf mgd hmgd
    rw [List.mem_singleton] at hmgd
    subst hmgd
    rw [hmax]
    rw [List.mem_filter] at hgf
    exact inv.bounded g hgf.1 _ (maxIndex_mem g (inv.nonempty g hgf.1))

/-- The grouping invariant holds at every stage of the fold. -/
theorem buildGroups_inv (cands : List RoleDecl) :
    ∀ k, k ≤ cands.length → GroupsInv cands k (buildGroups cands k) := by
  intro k
  induction k with
  | zero =>
    intro _
    exact ⟨fun g hg => absurd hg (List.not_mem_nil g),
           fun g hg => absurd hg (List.not_mem_nil g),
           fun i hi => absurd hi (Nat.not_lt_zero i),
           fun g hg => absurd hg (List.not_mem_nil g),
           fun g hg => absurd hg (List.not_mem_nil g),
           fun g hg => absurd hg (List.not_mem_nil g),
           List.Pairwise.nil⟩
  | succ k ih =>
    intro hk
    exact groupsInv_insert cands k (buildGroups cands k) (ih (by omega)) (by omega)

/-- The grouping invariant holds for the final group list. -/
theorem groupIndices_inv (cands : List RoleDecl) :
    GroupsInv cands cands.length (groupIndices cands) :=
  buildGroups_inv cands cands.length (le_refl _)

/-- Two candidate indices lie in a common final group exactly when they are
linked by a chain of pairwise mergeable declarations. -/
theorem mem_group_iff_linked (cands : List RoleDecl) (i j : Nat)
    (hi : i < cands.length) (hj : j < cands.length) :
    (∃ g ∈ groupIndices cands, i ∈ g ∧ j ∈ g) ↔ linked cands i j := by
  have inv := groupIndices_inv cands
  constructor
  · rintro ⟨g, hg, hig, hjg⟩
    exact inv.conn g hg i hig j hjg
  · intro hlink
    clear hj
    induction hlink with
    | refl =>
      obtain ⟨g, hg, hig⟩ := inv.cover i hi
      exact ⟨g, hg, hig, hig⟩
    | tail hab hbc ih =>
      obtain ⟨g, hg, hig, hbg⟩ := ih
      obtain ⟨hbn, hcn, hcm⟩ := hbc
      obtain ⟨h2, hh2, hch2⟩ := inv.cover _ hcn
      by_cases hgh : g = h2
      · exact ⟨g, hg, hig, hgh ▸ hch2⟩
      · have := inv.sep g hg h2 hh2 hgh _ hbg _ hch2
        rw [hcm] at this
        cases this

/-- posOf is the position of the group containing index i in a group list
(the list length when no group contains i). -/
def posOf (i : Nat) : List (List Nat) → Nat
  | [] => 0
  | g :: gs => if i ∈ g then 0 else posOf i gs + 1

/-- posOf lands inside the list when some group contains i. -/
theorem posOf_lt_length : ∀ (L : List (List Nat)) (i : Nat),
    (∃ g ∈ L, i ∈ g) → posOf i L < L.length
  | [], i, h => by simp at h
  | g :: gs, i, h => by
    by_cases hig : i ∈ g
    · simp [posOf, hig]
    · obtain ⟨g', hg', hig'⟩ := h
      rcases List.mem_cons.mp hg' with rfl | h2
      · exact absurd hig' hig
      · have := posOf_lt_length gs i ⟨g', h2, hig'⟩
        simp only [posOf, if_neg hig, List.length_cons]
        omega

/-- The group at position posOf i contains i. -/
theorem mem_get_posOf : ∀ (L : List (List Nat)) (i : Nat)
    (h : posOf i L < L.length), i ∈ L.get ⟨posOf i L, h⟩
  | [], i, h => by simp [posOf] at h
  | g :: gs, i, h => by
    by_cases hig : i ∈ g
    · simp only [posOf, if_pos hig]
      exact hig
    · have h' : posOf i gs < gs.length := by
        simp only [posOf, if_neg hig, List.length_cons] at h
        omega
      have ih := mem_get_posOf gs i h'
      simp only [posOf, if_neg hig]
      rw [List.get_cons_succ]
      exact ih

/-- In a group list strictly ordered by maxIndex, the group whose maxIndex is
the smaller index comes first. -/
theorem posOf_lt_posOf (L : List (List Nat)) (i j : Nat)
    (hpw : List.Pairwise (fun g h => maxIndex g < maxIndex h) L)
    (hi : ∃ g ∈ L, i ∈ g) (hj : ∃ g ∈ L, j ∈ g)
    (hmi : ∀ g ∈ L, i ∈ g → maxIndex g = i)
    (hmj : ∀ g ∈ L, j ∈ g → maxIndex g = j)
    (hij : i < j) : posOf i L < posOf j L := by
  have hpi := posOf_lt_length L i hi
  have hpj := posOf_lt_length L j hj
  have hgi := mem_get_posOf L i hpi
  have hgj := mem_get_posOf L j hpj
  have hmaxi : maxIndex (L.get ⟨posOf i L, hpi⟩) = i :=
    hmi _ (L.get_mem _ _) hgi
  have hmaxj : maxIndex (L.get ⟨posOf j L, hpj⟩) = j :=
    hmj _ (L.get_mem _ _) hgj
  rcases Nat.lt_trichotomy (posOf i L) (posOf j L) with h | h | h
  · exact h
  · exfalso
    have heq : (⟨posOf i L, hpi⟩ : Fin L.length) = ⟨posOf j L, hpj⟩ := Fin.ext h
    rw [heq, hmaxj] at hmaxi
    omega
  · exfalso
    have := (List.pairwise_iff_get.mp hpw) ⟨posOf j L, hpj⟩ ⟨posOf i L, hpi⟩ h
    rw [hmaxi, hmaxj] at this
    omega

/-- Membership in insertKey: the inserted key or an old member. -/
theorem mem_insertKey : ∀ (l : List Nat) (x y : Nat),
    y ∈ insertKey x l ↔ y = x ∨ y ∈ l
  | [], x, y => by simp [insertKey]
  | a :: t, x, y => by
    unfold insertKey
    by_cases h1 : x < a
    · rw [if_pos h1]
      simp [List.mem_cons]
    · rw [if_neg h1]
      by_cases h2 : x = a
      · subst h2
        rw [if_pos rfl]
        simp [List.mem_cons]
      · rw [if_neg h2]
        have ih := mem_insertKey t x y
        simp [List.mem_cons, ih]
        tauto

/-- insertKey preserves strict sortedness. -/
theorem pairwise_insertKey : ∀ (l : List Nat) (x : Nat),
    List.Pairwise (· < ·) l → List.Pairwise (· < ·) (insertKey x l)
  | [], x, _ => by simp [insertKey]
  | a :: t, x, hp => by
    unfold insertKey
    obtain ⟨ha, ht⟩ := List.pairwise_cons.mp hp
    by_cases h1 : x < a
    · rw [if_pos h1]
      refine List.pairwise_cons.mpr ⟨?_, hp⟩
      intro b hb
      rcases List.mem_cons.mp hb with rfl | hbt
      · exact h1
      · exact lt_trans h1 (ha b hbt)
    · rw [if_neg h1]
      by_cases h2 : x = a
      · rw [if_pos h2]
        exact hp
      · rw [if_neg h2]
        refine List.pairwise_cons.mpr ⟨?_, pairwise_insertKey t x ht⟩
        intro b hb
        rcases (mem_insertKey t x b).mp hb with rfl | hbt
        · omega
        · exact ha b hbt

/-- sortDedup output is strictly ascending (hence duplicate-free). -/
theorem pairwise_sortDedup (l : List Nat) : List.Pairwise (· < ·) (sortDedup l) := by
  induction l with
  | nil => simp [sortDedup]
  | cons a t ih => exact pairwise_insertKey _ a ih

/-- sortDedup preserves membership. -/
theorem mem_sortDedup (l : List Nat) (x : Nat) : x ∈ sortDedup l ↔ x ∈ l := by
  induction l with
  | nil => simp [sortDedup]
  | cons a t ih =>
    show x ∈ insertKey a (sortDedup t) ↔ _
    rw [mem_insertKey, ih, List.mem_cons]

/-- Membership in keysOfGroup: a key index declared by some member. -/
theorem mem_keysOfGroup (cands : List RoleDecl) : ∀ (g : List Nat) (x : Nat),
    x ∈ keysOfGroup cands g ↔ ∃ j ∈ g, x ∈ (cands.getD j default).keyIndices
  | [], x => by simp [keysOfGroup]
  | a :: t, x => by
    show x ∈ (cands.getD a default).keyIndices ++ keysOfGroup cands t ↔ _
    rw [List.mem_append, mem_keysOfGroup cands t]
    constructor
    · rintro (hx | ⟨j, hj, hx⟩)
      · exact ⟨a, List.mem_cons_self _ _, hx⟩
      · exact ⟨j, List.mem_cons_of_mem _ hj, hx⟩
    · rintro ⟨j, hj, hx⟩
      rcases List.mem_cons.mp hj with rfl | hjt
      · exact Or.inl hx
      · exact Or.inr ⟨j, hjt, hx⟩

/-- A role is rendered on a resolved signer exactly when some member of its
group declares it. -/
theorem mem_roles_iff (pk : Option ProposalKey) (cands : List RoleDecl)
    (g : List Nat) (r : SignerRole) :
    r ∈ (signerOfGroup pk cands g).roles ↔ groupHasRole cands g r = true := by
  show r ∈ (if groupHasRole cands g SignerRole.proposer then [SignerRole.proposer] else []) ++
      (if groupHasRole cands g SignerRole.payer then [SignerRole.payer] else []) ++
      (if groupHasRole cands g SignerRole.authorizer then [SignerRole.authorizer] else []) ↔ _
  cases r <;>
    by_cases h1 : groupHasRole cands g SignerRole.proposer = true <;>
    by_cases h2 : groupHasRole cands g SignerRole.payer = true <;>
    by_cases h3 : groupHasRole cands g SignerRole.authorizer = true <;>
    simp [h1, h2, h3]

/-- The rendered roles are the priority list filtered by the group's roles. -/
theorem roles_eq_filter (pk : Option ProposalKey) (cands : List RoleDecl)
    (g : List Nat) :
    (signerOfGroup pk cands g).roles =
      [SignerRole.proposer, SignerRole.payer, SignerRole.authorizer].filter
        (fun r => groupHasRole cands g r) := by
  show (if groupHasRole cands g SignerRole.proposer then [SignerRole.proposer] else []) ++
      (if groupHasRole cands g SignerRole.payer then [SignerRole.payer] else []) ++
      (if groupHasRole cands g SignerRole.authorizer then [SignerRole.authorizer] else []) = _
  by_cases h1 : groupHasRole cands g SignerRole.proposer = true <;>
    by_cases h2 : groupHasRole cands g SignerRole.payer = true <;>
    by_cases h3 : groupHasRole cands g SignerRole.authorizer = true <;>
    simp [h1, h2, h3, List.filter]

/-- When a payer is declared, the candidates end with exactly its declaration
and no earlier candidate carries the payer role. -/
theorem candidates_payer_split (t : Transaction) (a : Nat) (ks : List Nat)
    (h : t.payer = some (a, ks)) :
    t.candidates = (propPart t ++ authPart t) ++ [⟨a, ks, SignerRole.payer⟩] ∧
      ∀ d ∈ propPart t ++ authPart t, d.role ≠ SignerRole.payer := by
  constructor
  · unfold Transaction.candidates payerPart
    rw [h]
  · intro d hd
    rcases List.mem_append.mp hd with h1 | h2
    · unfold propPart at h1
      cases hpk : t.proposalKey with
      | none =>
        rw [hpk] at h1
        simp at h1
      | some pk =>
        rw [hpk] at h1
        simp only [List.mem_singleton] at h1
        subst h1
        simp
    · obtain ⟨p, hp, rfl⟩ := List.mem_map.mp h2
      simp

/-- When a proposal key is declared, the candidate list starts with its
declaration. -/
theorem candidates_head_proposer (t : Transaction) (pk : ProposalKey)
    (h : t.proposalKey = some pk) :
    t.candidates = (⟨pk.address, [pk.keyIndex], SignerRole.proposer⟩ : RoleDecl) ::
      (authPart t ++ payerPart t) := by
  unfold Transaction.candidates propPart
  rw [h]
  simp

/-- C9: declaring the payer before the proposal key yields exactly the same
resolved Signers list as declaring the proposal key first; the builder stores
each in its own field, so the two setters commute. -/
theorem Signers_proposer_payer_commute (t : Transaction) (a : Nat)
    (ks : List Nat) (pa pk sn : Nat) :
    ((t.SetPayer a ks).SetProposalKey pa pk sn).Signers =
      ((t.SetProposalKey pa pk sn).SetPayer a ks).Signers := rfl

/-- C7: every resolved signer's key index list is strictly ascending with no
duplicates, and is exactly the set union of the key indices declared by the
members of the signer's merged group. -/
theorem Signers_keyIndices_canonical (t : Transaction) (s : Signer)
    (hs : s ∈ t.Signers) :
    List.Pairwise (· < ·) s.keyIndices ∧
    ∃ g ∈ t.signerGroups, s = signerOfGroup t.proposalKey t.candidates g ∧
      ∀ x, x ∈ s.keyIndices ↔ ∃ j ∈ g, x ∈ (t.candidates.getD j default).keyIndices := by
  obtain ⟨g, hg, rfl⟩ := List.mem_map.mp hs
  refine ⟨pairwise_sortDedup _, g, hg, rfl, ?_⟩
  intro x
  show x ∈ sortDedup (keysOfGroup t.candidates g) ↔ _
  rw [mem_sortDedup, mem_keysOfGroup]

/-- C8: every resolved signer's rendered role list is nonempty and is a
sublist of the fixed priority list proposer, payer, authorizer, so roles are
always rendered in that priority order regardless of declaration order. -/
theorem Signers_roles_priority (t : Transaction) (s : Signer)
    (hs : s ∈ t.Signers) :
    s.roles ≠ [] ∧ List.Sublist s.roles
      [SignerRole.proposer, SignerRole.payer, SignerRole.authorizer] := by
  obtain ⟨g, hg, rfl⟩ := List.mem_map.mp hs
  have inv := groupIndices_inv t.candidates
  rw [roles_eq_filter]
  constructor
  · have hgne := inv.nonempty g hg
    obtain ⟨j, hj⟩ := List.exists_mem_of_ne_nil g hgne
    have hpred : groupHasRole t.candidates g (t.candidates.getD j default).role = true :=
      List.any_eq_true.mpr ⟨j, hj, by simp⟩
    have hrmem : (t.candidates.getD j default).role ∈
        [SignerRole.proposer, SignerRole.payer, SignerRole.authorizer] := by
      cases hr : (t.candidates.getD j default).role <;> simp
    exact List.ne_nil_of_mem (List.mem_filter.mpr ⟨hrmem, hpred⟩)
  · exact List.filter_sublist _

/-- C2 amended: whenever a payer is declared, its resolved group is the last
element of Signers, after every other group, regardless of when SetPayer was
called relative to the authorizer additions; no other signer carries the
payer role. -/
theorem Signers_payer_last (t : Transaction) (a : Nat) (ks : List Nat)
    (h : t.payer = some (a, ks)) :
    ∃ pre s, t.Signers = pre ++ [s] ∧ SignerRole.payer ∈ s.roles ∧
      ∀ s2 ∈ pre, SignerRole.payer ∉ s2.roles := by
  obtain ⟨hc, hfr⟩ := candidates_payer_split t a ks h
  have hlen : t.candidates.length = (propPart t ++ authPart t).length + 1 := by
    rw [hc]
    simp
    omega
  have hL : t.signerGroups =
      insertIndex t.candidates (buildGroups t.candidates (propPart t ++ authPart t).length)
        (propPart t ++ authPart t).length := by
    show groupIndices t.candidates = _
    unfold groupIndices
    rw [hlen]
    rfl
  have hinv := buildGroups_inv t.candidates (propPart t ++ authPart t).length (by omega)
  refine ⟨((buildGroups t.candidates (propPart t ++ authPart t).length).filter
      (fun g => !touches t.candidates (propPart t ++ authPart t).length g)).map
      (signerOfGroup t.proposalKey t.candidates),
    signerOfGroup t.proposalKey t.candidates
      (((buildGroups t.candidates (propPart t ++ authPart t).length).filter
        (touches t.candidates (propPart t ++ authPart t).length)).flatten ++
        [(propPart t ++ authPart t).length]), ?_, ?_, ?_⟩
  · show t.signerGroups.map _ = _
    rw [hL]
    unfold insertIndex
    rw [List.map_append]
    rfl
  · rw [mem_roles_iff]
    apply List.any_eq_true.mpr
    refine ⟨(propPart t ++ authPart t).length, ?_, ?_⟩
    · exact List.mem_append.mpr (Or.inr (List.mem_singleton.mpr rfl))
    · have hgetd : t.candidates.getD (propPart t ++ authPart t).length default =
          ⟨a, ks, SignerRole.payer⟩ := by
        rw [hc, List.getD_append_right _ _ _ _ (le_refl _)]
        simp
      rw [hgetd]
      simp
  · intro s2 hs2
    obtain ⟨g2, hg2, rfl⟩ := List.mem_map.mp hs2
    rw [mem_roles_iff]
    intro habs
    obtain ⟨j, hj, hbeq⟩ := List.any_eq_true.mp habs
    have hg2mem : g2 ∈ buildGroups t.candidates (propPart t ++ authPart t).length :=
      (List.mem_filter.mp hg2).1
    have hjlt : j < (propPart t ++ authPart t).length := hinv.bounded g2 hg2mem j hj
    have hgetd : t.candidates.getD j default = (propPart t ++ authPart t).getD j default := by
      rw [hc, List.getD_append _ _ _ _ hjlt]
    have hmemfront : (propPart t ++ authPart t).getD j default ∈ propPart t ++ authPart t := by
      rw [List.getD_eq_get _ _ hjlt]
      exact List.get_mem _ _ _
    have hrole := hfr _ hmemfront
    rw [hgetd] at hbeq
    exact hrole (eq_of_beq hbeq)

/-- C3 amended: the proposer's resolved group is the first Signer whenever
the proposer declaration did not merge with any other declaration; in
general the resolved groups appear ordered by the declaration slot of their
most recently merged member, so two declarations that each remain the latest
member of their groups keep their declaration order. -/
theorem Signers_order (t : Transaction) :
    (∀ pk, t.proposalKey = some pk →
      (∀ g ∈ t.signerGroups, 0 ∈ g → g = [0]) →
      ∃ s rest, t.Signers = s :: rest ∧ SignerRole.proposer ∈ s.roles) ∧
    (∀ i j, i < j → j < t.candidates.length →
      (∀ g ∈ t.signerGroups, i ∈ g → maxIndex g = i) →
      (∀ g ∈ t.signerGroups, j ∈ g → maxIndex g = j) →
      posOf i t.signerGroups < posOf j t.signerGroups) := by
  have inv := groupIndices_inv t.candidates
  constructor
  · intro pk hpk hnm
    have hc := candidates_head_proposer t pk hpk
    have h0 : 0 < t.candidates.length := by
      rw [hc]
      simp
    obtain ⟨g0, hg0, h0g0⟩ := inv.cover 0 h0
    have hg0eq : g0 = [0] := hnm g0 hg0 h0g0
    subst hg0eq
    have hLne : t.signerGroups ≠ [] := by
      intro he
      have hg0s : ([0] : List Nat) ∈ t.signerGroups := hg0
      rw [he] at hg0s
      exact absurd hg0s (List.not_mem_nil _)
    obtain ⟨gh, Lt, hLeq⟩ : ∃ gh Lt, t.signerGroups = gh :: Lt := by
      cases hL : t.signerGroups with
      | nil => exact absurd hL hLne
      | cons x l => exact ⟨x, l, rfl⟩
    have hgh : gh = [0] := by
      have hg0L : ([0] : List Nat) ∈ gh :: Lt := by
        rw [← hLeq]
        exact hg0
      rcases List.mem_cons.mp hg0L with heq | hmem
      · exact heq.symm
      · exfalso
        have hord : List.Pairwise (fun g h => maxIndex g < maxIndex h) (gh :: Lt) := by
          rw [← hLeq]
          exact inv.ord
        have := (List.pairwise_cons.mp hord).1 [0] hmem
        simp [maxIndex] at this
    subst hgh
    refine ⟨signerOfGroup t.proposalKey t.candidates [0],
      Lt.map (signerOfGroup t.proposalKey t.candidates), ?_, ?_⟩
    · show t.signerGroups.map _ = _
      rw [hLeq]
      rfl
    · rw [mem_roles_iff]
      apply List.any_eq_true.mpr
      refine ⟨0, by simp, ?_⟩
      rw [hc]
      simp
  · intro i j hij hjn hmi hmj
    exact posOf_lt_posOf t.signerGroups i j inv.ord
      (inv.cover i (lt_trans hij hjn)) (inv.cover j hjn) hmi hmj hij

/-- C1 amended: two candidate declarations resolve into the same Signer
exactly when they are connected by a transitive chain of pairwise
subset-comparable same-address declarations; when at most the two of them
carry their address, this reduces to the claim's pairwise test, namely one
key set contains the other. -/
theorem sameSigner_iff_comparable_chain (t : Transaction) (i j : Nat)
    (hi : i < t.candidates.length) (hj : j < t.candidates.length) :
    ((∃ g ∈ t.signerGroups, i ∈ g ∧ j ∈ g) ↔ linked t.candidates i j) ∧
    ((∀ m, m < t.candidates.length →
        (t.candidates.getD m default).address =
          (t.candidates.getD i default).address → m = i ∨ m = j) →
      ((∃ g ∈ t.signerGroups, i ∈ g ∧ j ∈ g) ↔
        i = j ∨ canMerge (t.candidates.getD i default)
          (t.candidates.getD j default) = true)) := by
  have hmain : (∃ g ∈ t.signerGroups, i ∈ g ∧ j ∈ g) ↔ linked t.candidates i j :=
    mem_group_iff_linked t.candidates i j hi hj
  refine ⟨hmain, ?_⟩
  intro honly
  rw [hmain]
  constructor
  · intro hlink
    have aux : ∀ b, linked t.candidates i b →
        b = i ∨ canMerge (t.candidates.getD i default)
          (t.candidates.getD b default) = true := by
      intro b hb
      induction hb with
      | refl => exact Or.inl rfl
      | @tail b c hab hbc ih =>
        obtain ⟨hbn, hcn, hcm⟩ := hbc
        have haddr_bc : (t.candidates.getD b default).address =
            (t.candidates.getD c default).address := canMerge_address hcm
        have haddr_ib : (t.candidates.getD b default).address =
            (t.candidates.getD i default).address := by
          rcases ih with rfl | hcmi
          · rfl
          · exact (canMerge_address hcmi).symm
        have haddr : (t.candidates.getD c default).address =
            (t.candidates.getD i default).address := by
          rw [← haddr_bc]
          exact haddr_ib
        rcases honly c hcn haddr with rfl | rfl
        · exact Or.inl rfl
        · rcases ih with rfl | hcmi
          · exact Or.inr hcm
          · rcases honly b hbn haddr_ib with rfl | rfl
            · exact Or.inr hcm
            · exact Or.inr hcmi
    rcases aux j hlink with rfl | hcm
    · exact Or.inl rfl
    · exact Or.inr hcm
  · rintro (rfl | hcm)
    · exact Relation.ReflTransGen.refl
    · exact Relation.ReflTransGen.single ⟨hi, hj, hcm⟩

/-- txPP declares the proposer and the payer on the same address with
comparable key sets. -/
def txPP : Transaction := NewTransaction.SetProposalKey 1 1 42 |>.SetPayer 1 [1, 2]

/-- Witness for C1 at txPP and the candidate pair 0, 1. -/
theorem sameSigner_iff_comparable_chain_witness :
    ((∃ g ∈ txPP.signerGroups, 0 ∈ g ∧ 1 ∈ g) ↔ linked txPP.candidates 0 1) ∧
    ((∀ m, m < txPP.candidates.length →
        (txPP.candidates.getD m default).address =
          (txPP.candidates.getD 0 default).address → m = 0 ∨ m = 1) →
      ((∃ g ∈ txPP.signerGroups, 0 ∈ g ∧ 1 ∈ g) ↔
        0 = 1 ∨ canMerge (txPP.candidates.getD 0 default)
          (txPP.candidates.getD 1 default) = true)) :=
  sameSigner_iff_comparable_chain txPP 0 1 (by decide) (by decide)

/-- txDisjointBridge declares two authorizers with disjoint key sets on one
address plus a payer on the same address whose key set contains both. -/
def txDisjointBridge : Transaction :=
  NewTransaction.AddAuthorizer 2 [1] |>.AddAuthorizer 2 [2] |>.SetPayer 2 [1, 2]

/-- C1 counterexample: the two authorizer declarations on address 2 have
disjoint key sets, so the claim says they remain separate Signer entries; yet
the payer declaration bridges them transitively and all three resolve into
one single Signer. -/
theorem disjoint_decls_merged_transitively :
    txDisjointBridge.candidates =
      [⟨2, [1], SignerRole.authorizer⟩, ⟨2, [2], SignerRole.authorizer⟩,
       ⟨2, [1, 2], SignerRole.payer⟩] ∧
    canMerge ⟨2, [1], SignerRole.authorizer⟩ ⟨2, [2], SignerRole.authorizer⟩ = false ∧
    txDisjointBridge.Signers =
      [⟨2, [SignerRole.payer, SignerRole.authorizer], [1, 2], none⟩] := by decide

/-- txPayerEarly declares the payer before adding an authorizer. -/
def txPayerEarly : Transaction :=
  NewTransaction.SetProposalKey 1 1 42 |>.SetPayer 3 [1] |>.AddAuthorizer 2 [1]

/-- Witness for C2 at txPayerEarly. -/
theorem Signers_payer_last_witness :
    ∃ pre s, txPayerEarly.Signers = pre ++ [s] ∧ SignerRole.payer ∈ s.roles ∧
      ∀ s2 ∈ pre, SignerRole.payer ∉ s2.roles :=
  Signers_payer_last txPayerEarly 3 [1] rfl

/-- C2 counterexample: the authorizer on address 2 is added after the SetPayer
call, so the claim places the payer's group before it; yet the resolved list
puts the payer last, after that authorizer (matching the repository test
TestTransaction_Signers_DeclarationOrder, authorizer-after-payer case). -/
theorem payer_after_later_authorizer :
    txPayerEarly.Signers =
      [⟨1, [SignerRole.proposer], [1], some ⟨1, 1, 42⟩⟩,
       ⟨2, [SignerRole.authorizer], [1], none⟩,
       ⟨3, [SignerRole.payer], [1], none⟩] := by decide

/-- txSimple declares a proposer and a payer on distinct addresses. -/
def txSimple : Transaction := NewTransaction.SetProposalKey 1 1 42 |>.SetPayer 2 [1]

/-- Witness for C3 at txSimple. -/
theorem Signers_order_witness :
    ∃ s rest, txSimple.Signers = s :: rest ∧ SignerRole.proposer ∈ s.roles :=
  (Signers_order txSimple).1 ⟨1, 1, 42⟩ rfl (by decide)

/-- txPropSecond is the repository test scenario
TestTransaction_Signers_ProposerPayerSameAddress, with-authorizer case:
proposer on address 1, authorizer on address 2, payer on address 1 with a
containing key set. -/
def txPropSecond : Transaction :=
  NewTransaction.SetProposalKey 1 1 42 |>.AddAuthorizer 2 [1] |>.SetPayer 1 [1, 2]

/-- C3 counterexample: a proposer is declared, yet its resolved group is the
second Signer, after the authorizer's group, because the proposer merged with
the later payer declaration; so the proposer's group is not always the first
element of Signers. -/
theorem proposer_not_first :
    txPropSecond.proposalKey = some ⟨1, 1, 42⟩ ∧
    txPropSecond.Signers =
      [⟨2, [SignerRole.authorizer], [1], none⟩,
       ⟨1, [SignerRole.proposer, SignerRole.payer], [1, 2], some ⟨1, 1, 42⟩⟩] ∧
    SignerRole.proposer ∉
      (⟨2, [SignerRole.authorizer], [1], none⟩ : Signer).roles := by decide

/-- txKeys declares payer keys out of order and with an overlap with the
proposal key. -/
def txKeys : Transaction :=
  NewTransaction.SetProposalKey 1 1 42 |>.SetPayer 1 [4, 2, 1, 3]

/-- Witness for C7 at txKeys and its single merged signer. -/
theorem Signers_keyIndices_canonical_witness :
    List.Pairwise (· < ·)
      (Signer.mk 1 [SignerRole.proposer, SignerRole.payer] [1, 2, 3, 4]
        (some ⟨1, 1, 42⟩)).keyIndices ∧
    ∃ g ∈ txKeys.signerGroups,
      Signer.mk 1 [SignerRole.proposer, SignerRole.payer] [1, 2, 3, 4]
        (some ⟨1, 1, 42⟩) = signerOfGroup txKeys.proposalKey txKeys.candidates g ∧
      ∀ x, x ∈ (Signer.mk 1 [SignerRole.proposer, SignerRole.payer] [1, 2, 3, 4]
          (some ⟨1, 1, 42⟩)).keyIndices ↔
        ∃ j ∈ g, x ∈ (txKeys.candidates.getD j default).keyIndices :=
  Signers_keyIndices_canonical txKeys _ (by decide)

/-- txAll declares all three roles on one address with one key. -/
def txAll : Transaction :=
  NewTransaction.SetProposalKey 1 1 42 |>.SetPayer 1 [1] |>.AddAuthorizer 1 [1]

/-- Witness for C8 at txAll and its single merged signer. -/
theorem Signers_roles_priority_witness :
    (Signer.mk 1 [SignerRole.proposer, SignerRole.payer, SignerRole.authorizer] [1]
      (some ⟨1, 1, 42⟩)).roles ≠ [] ∧
    List.Sublist (Signer.mk 1
      [SignerRole.proposer, SignerRole.payer, SignerRole.authorizer] [1]
      (some ⟨1, 1, 42⟩)).roles
      [SignerRole.proposer, SignerRole.payer, SignerRole.authorizer] :=
  Signers_roles_priority txAll _ (by decide)
